import Mathlib

/-!
Shallow embedding of the chunked voxel storage and double-buffered edit
pipeline of the `bevy-building-blocks` crate (files `src/map.rs`,
`src/map_io/edit_buffer.rs`, `src/map_io/editor.rs`,
`src/map_io/chunk_cache_flusher.rs`, `src/map_io/plugin.rs`).

Integer 3D points (`Point3i` of the `building_blocks` dependency) are
embedded as triples of integers with componentwise arithmetic.  Chunk keys
live in chunk-space: the key of the chunk containing a world point is the
componentwise floor division of the point by the fixed chunk shape, and the
chunk at key `k` covers the voxel extent from `k * shape` to
`k * shape + shape - 1`.  Hash maps and hash sets are embedded as
association lists (first match wins on lookup) and finite sets of keys.
Voxel edit closures are embedded as pure functions `Point3i → V → V`.
-/

namespace BevyBB

/-- A 3D integer point, componentwise arithmetic via the product instances. -/
abbrev Point3i : Type := Int × Int × Int

/-- All three components strictly positive (every valid chunk shape is). -/
def Point3i.allPos (p : Point3i) : Prop := 0 < p.1 ∧ 0 < p.2.1 ∧ 0 < p.2.2

instance (p : Point3i) : Decidable (Point3i.allPos p) := by
  unfold Point3i.allPos; infer_instance

/-- Componentwise integer division rounding toward negative infinity
(the divisor is always a positive chunk shape, for which Euclidean
division agrees with floor division). -/
def Point3i.ediv (p q : Point3i) : Point3i := (p.1 / q.1, p.2.1 / q.2.1, p.2.2 / q.2.2)

/-- Componentwise multiplication. -/
def Point3i.cmul (p q : Point3i) : Point3i := (p.1 * q.1, p.2.1 * q.2.1, p.2.2 * q.2.2)

/-- An axis-aligned box of voxels (`Extent3i`): a minimum corner and a shape. -/
structure Extent3i where
  minimum : Point3i
  shape : Point3i
deriving DecidableEq

/-- The greatest point of the extent. -/
def Extent3i.max (e : Extent3i) : Point3i := e.minimum + e.shape - 1

/-- Build an extent from its least and greatest points. -/
def Extent3i.fromMinAndMax (lo hi : Point3i) : Extent3i := ⟨lo, hi - lo + 1⟩

/-- Build an extent from its least point and its shape. -/
def Extent3i.fromMinAndShape (lo s : Point3i) : Extent3i := ⟨lo, s⟩

/-- Membership of a point in an extent (componentwise bounds). -/
def Extent3i.containsPoint (e : Extent3i) (p : Point3i) : Prop :=
  e.minimum ≤ p ∧ p ≤ e.max

instance (e : Extent3i) (p : Point3i) : Decidable (e.containsPoint p) := by
  unfold Extent3i.containsPoint; infer_instance

/-- The key of the chunk containing a world point: componentwise floor
division by the chunk shape. -/
def chunkKeyContainingPoint (chunk_shape p : Point3i) : Point3i :=
  Point3i.ediv p chunk_shape

/-- The voxel extent covered by the chunk at a chunk-space key. -/
def extent_for_chunk_at_key (chunk_shape key : Point3i) : Extent3i :=
  Extent3i.fromMinAndShape (Point3i.cmul key chunk_shape) chunk_shape

/-- Inclusive range of integers as a list. -/
def intRange (a b : Int) : List Int :=
  (List.range (b + 1 - a).toNat).map (fun i : Nat => a + (i : Int))

/-- All points of the box from `lo` to `hi`, inclusive, as a list. -/
def pointRange (lo hi : Point3i) : List Point3i :=
  (intRange lo.1 hi.1).flatMap (fun x =>
    (intRange lo.2.1 hi.2.1).flatMap (fun y =>
      (intRange lo.2.2 hi.2.2).map (fun z => (x, y, z))))

/-- The chunk keys whose chunks overlap the extent, as the iterator of the
source yields them: all keys between the key containing the least point
and the key containing the greatest point of the extent. -/
def chunk_keys_list (chunk_shape : Point3i) (e : Extent3i) : List Point3i :=
  pointRange (chunkKeyContainingPoint chunk_shape e.minimum)
    (chunkKeyContainingPoint chunk_shape e.max)

/-- The same overlapping chunk keys as a finite set. -/
def chunk_keys_for_extent (chunk_shape : Point3i) (e : Extent3i) : Finset Point3i :=
  Finset.Icc (chunkKeyContainingPoint chunk_shape e.minimum)
    (chunkKeyContainingPoint chunk_shape e.max)

/-- A decompressed chunk array (`Array3<V>`): voxel values indexed by world
point.  Only points inside the owning chunk extent are meaningful. -/
abbrev Array3 (V : Type) : Type := Point3i → V

/-- Association-list lookup keyed by `Point3i`, first match wins. -/
def alistLookup {A : Type} : List (Point3i × A) → Point3i → Option A
  | [], _ => none
  | kc :: rest, q => if kc.1 = q then some kc.2 else alistLookup rest q

instance {A : Type} (o : Option A) : Decidable (o = none) :=
  Option.decidableEqNone

/-- The sparse chunk map (`ChunkMap3<V>`): a fixed chunk shape and a keyed
collection of chunks.  The hash map of the source is embedded as an
association list whose construction keeps keys unique. -/
structure ChunkMap3 (V : Type) where
  chunk_shape : Point3i
  chunks : List (Point3i × Array3 V)

/-- Rust `default_chunk_map(chunk_shape)`: an empty map with ambient
default voxel value. -/
def default_chunk_map (V : Type) (chunk_shape : Point3i) : ChunkMap3 V :=
  ⟨chunk_shape, []⟩

/-- Rust `default_array(extent)`: an array filled with the default voxel. -/
def default_array (V : Type) [Inhabited V] : Array3 V := fun _ => default

/-- Rust `chunks.get_or_insert_with(key, f)`: keep an existing chunk,
otherwise insert the produced one. -/
def ChunkMap3.get_or_insert_with {V : Type} (m : ChunkMap3 V) (key : Point3i)
    (f : Unit → Array3 V) : ChunkMap3 V :=
  match alistLookup m.chunks key with
  | some _ => m
  | none => { m with chunks := (key, f ()) :: m.chunks }

/-- Rust `chunks.insert(key, chunk)`: install a chunk, replacing any prior
entry at that key. -/
def ChunkMap3.insert_chunk {V : Type} (m : ChunkMap3 V) (key : Point3i)
    (a : Array3 V) : ChunkMap3 V :=
  { m with chunks := (key, a) :: m.chunks.filter (fun kc => decide (kc.1 ≠ key)) }

/-- The set of keys of the stored chunks. -/
def ChunkMap3.chunk_keys {V : Type} (m : ChunkMap3 V) : Finset Point3i :=
  (m.chunks.map Prod.fst).toFinset

/-- The new value of the voxel at `p` in the chunk keyed `key` after
running the edit closure over `extent`: edited exactly when `p` lies in
this chunk and in the edit extent. -/
def applyEditToChunk {V : Type} (chunk_shape : Point3i) (extent : Extent3i)
    (edit_func : Point3i → V → V) (key : Point3i) (a : Array3 V) : Array3 V :=
  fun p =>
    if chunkKeyContainingPoint chunk_shape p = key ∧ extent.containsPoint p
    then edit_func p (a p) else a p

/-- Rust `ChunkMap3::for_each_mut(extent, f)`: run the edit closure on every
voxel of every stored chunk that falls inside `extent` (the edit buffer
materializes all overlapping chunks before calling this). -/
def ChunkMap3.for_each_mut {V : Type} (m : ChunkMap3 V) (extent : Extent3i)
    (edit_func : Point3i → V → V) : ChunkMap3 V :=
  { m with chunks :=
      m.chunks.map (fun kc => (kc.1, applyEditToChunk m.chunk_shape extent edit_func kc.1 kc.2)) }

/-- Rust `ChunkMap3::get(p)`: the stored voxel, or the ambient default when
no chunk is stored at the containing key. -/
def ChunkMap3.get {V : Type} [Inhabited V] (m : ChunkMap3 V) (p : Point3i) : V :=
  match alistLookup m.chunks (chunkKeyContainingPoint m.chunk_shape p) with
  | some a => a p
  | none => default

/-- Rust `reader.copy_chunk_without_caching(key).map(as_decompressed)
.unwrap_or(default_array)`: a private decompressed copy of the upstream
chunk, or a default-filled array when absent upstream.  Nothing is cached
back into the shared store. -/
def copy_chunk_or_default {V : Type} [Inhabited V] (reader : ChunkMap3 V)
    (key : Point3i) : Array3 V :=
  match alistLookup reader.chunks key with
  | some a => a
  | none => default_array V

/-- The report of the merge (`DirtyChunks`): directly edited chunk keys and
the accumulated dirty key set.  The source holds the edited keys in a
`Vec` collected from hash-map iteration; the embedding keeps the key set. -/
structure DirtyChunks where
  edited_chunk_keys : Finset Point3i
  dirty_chunk_keys : Finset Point3i

/-- The double buffer of staged edits (`EditBuffer<V>`). -/
structure EditBuffer (V : Type) where
  edited_voxels : ChunkMap3 V
  dirty_chunk_keys : Finset Point3i

/-- Rust `EditBuffer::new(chunk_shape)`: empty backbuffer, empty dirty set. -/
def EditBuffer.new (V : Type) (chunk_shape : Point3i) : EditBuffer V :=
  ⟨default_chunk_map V chunk_shape, ∅⟩

/-- The extent whose overlapping chunk keys are marked dirty: the edit
extent itself, or, when neighbors are touched, the edit extent padded by
one chunk shape on every side. -/
def dirtyExtentOf (chunk_shape : Point3i) (touch_neighbors : Bool)
    (extent : Extent3i) : Extent3i :=
  if touch_neighbors then
    Extent3i.fromMinAndMax (extent.minimum - chunk_shape) (extent.max + chunk_shape)
  else extent

/-- Rust `EditBuffer::dirty_chunks_for_extent`: add the keys of all chunks
overlapping the (possibly padded) extent to the dirty set. -/
def EditBuffer.dirty_chunks_for_extent {V : Type} (buf : EditBuffer V)
    (touch_neighbors : Bool) (extent : Extent3i) : EditBuffer V :=
  let dirty_extent := dirtyExtentOf buf.edited_voxels.chunk_shape touch_neighbors extent
  let new_keys := chunk_keys_for_extent buf.edited_voxels.chunk_shape dirty_extent
  { buf with dirty_chunk_keys := buf.dirty_chunk_keys ∪ new_keys }

/-- Rust `EditBuffer::edit_voxels_out_of_place`: copy every chunk
overlapping `extent` that is not yet buffered from the `reader` (or fill
with defaults when absent upstream), mark dirty keys, then run the edit
closure on the backbuffer. -/
def EditBuffer.edit_voxels_out_of_place {V : Type} [Inhabited V] (buf : EditBuffer V)
    (reader : ChunkMap3 V) (extent : Extent3i) (edit_func : Point3i → V → V)
    (touch_neighbors : Bool) : EditBuffer V :=
  let copied := (chunk_keys_list reader.chunk_shape extent).foldl
    (fun m chunk_key =>
      m.get_or_insert_with chunk_key (fun _ => copy_chunk_or_default reader chunk_key))
    buf.edited_voxels
  let buf2 : EditBuffer V := { edited_voxels := copied, dirty_chunk_keys := buf.dirty_chunk_keys }
  let buf3 := buf2.dirty_chunks_for_extent touch_neighbors extent
  { buf3 with edited_voxels := buf3.edited_voxels.for_each_mut extent edit_func }

/-- Rust `EditBuffer::insert_chunk`: mark the extent of the chunk at
`chunk_key` dirty (with neighbors when requested), then install the given
array as the buffered chunk, overwriting prior buffered edits at that key. -/
def EditBuffer.insert_chunk {V : Type} (buf : EditBuffer V) (touch_neighbors : Bool)
    (chunk_key : Point3i) (chunk : Array3 V) : EditBuffer V :=
  let extent := extent_for_chunk_at_key buf.edited_voxels.chunk_shape chunk_key
  let buf2 := buf.dirty_chunks_for_extent touch_neighbors extent
  { buf2 with edited_voxels := buf2.edited_voxels.insert_chunk chunk_key chunk }

/-- Rust `EditBuffer::merge_edits(dst_map)`: collect the edited keys, move
every buffered chunk into the destination map (overwriting previous
entries at those keys), and return the dirty report. -/
def EditBuffer.merge_edits {V : Type} (buf : EditBuffer V) (dst_map : ChunkMap3 V) :
    ChunkMap3 V × DirtyChunks :=
  let edited_chunk_keys := buf.edited_voxels.chunk_keys
  let merged := buf.edited_voxels.chunks.foldl
    (fun m kc => m.insert_chunk kc.1 kc.2) dst_map
  (merged, ⟨edited_chunk_keys, buf.dirty_chunk_keys⟩)

/-- Rust `double_buffering_system`: swap in a fresh empty buffer with the
chunk shape of the map, and merge the old buffer into the map, storing the
dirty report into the `DirtyChunks` resource. -/
def double_buffering_system {V : Type} [Inhabited V] (voxel_map : ChunkMap3 V)
    (edit_buffer : EditBuffer V) : ChunkMap3 V × EditBuffer V × DirtyChunks :=
  let fresh := EditBuffer.new V voxel_map.chunk_shape
  let merged := edit_buffer.merge_edits voxel_map
  (merged.1, fresh, merged.2)

/-- The resources a `VoxelEditor` touches: the shared `VoxelMap` (read
only) and the live `EditBuffer` (mutated). -/
structure MapIoState (V : Type) where
  voxel_map : ChunkMap3 V
  edit_buffer : EditBuffer V

/-- One call through the `VoxelEditor` interface of `editor.rs`: either
`_edit_extent` or `insert_chunk`, each with its `touch_neighbors` flag. -/
inductive EditorOp (V : Type) where
  | editExtent (touch_neighbors : Bool) (extent : Extent3i) (edit_func : Point3i → V → V)
  | insertChunk (touch_neighbors : Bool) (chunk_key : Point3i) (chunk : Array3 V)

/-- Rust `VoxelEditor::_edit_extent` and `VoxelEditor::insert_chunk`: the
reader is a view of the shared map; all writes land in the edit buffer. -/
def applyEditorOp {V : Type} [Inhabited V] (s : MapIoState V) : EditorOp V → MapIoState V
  | .editExtent t e f =>
      { s with edit_buffer := s.edit_buffer.edit_voxels_out_of_place s.voxel_map e f t }
  | .insertChunk t k a =>
      { s with edit_buffer := s.edit_buffer.insert_chunk t k a }

/-- Rust `VoxelPalette<I>`: ordered per-type metadata. -/
structure VoxelPalette (I : Type) where
  infos : List I

/-- Rust `VoxelPalette::get_voxel_type_info`, which evaluates
`&self.infos[voxel.get_type_index()]`.  Indexing a `Vec` out of bounds
panics; the panic branch is embedded as `none`. -/
def VoxelPalette.get_voxel_type_info {V I : Type} (pal : VoxelPalette I)
    (get_type_index : V → Nat) (voxel : V) : Option I :=
  pal.infos.get? (get_type_index voxel)

/-- Modelled from the spec: a thread-local read cache of decompressed
chunks (`LocalChunkCache3<V>`; the `thread_local_resource.rs` module and
the cache type of the `building_blocks` dependency are not part of the
sources at hand).  Per the spec it is a private keyed collection of
decompressed chunk copies. -/
abbrev LocalChunkCache (V : Type) : Type := List (Point3i × Array3 V)

/-- Modelled from the spec: one entry of the shared chunk cache, holding a
chunk either decompressed (fast access) or as its compressed form.  The
codec is a black-box reversible byte codec, so the compressed form
determines the same voxel array; the embedding keeps that array as the
meaning of the blob. -/
inductive CacheEntry (V : Type) where
  | cached (a : Array3 V)
  | compressed (a : Array3 V)

/-- The voxel array an entry denotes, decompressing as needed. -/
def CacheEntry.data {V : Type} : CacheEntry V → Array3 V
  | .cached a => a
  | .compressed a => a

/-- Whether the entry currently holds the decompressed representation. -/
def CacheEntry.isCached {V : Type} : CacheEntry V → Bool
  | .cached _ => true
  | .compressed _ => false

/-- Modelled from the spec: the shared cache of the store, ordered least
recently used first. -/
abbrev SharedCache (V : Type) : Type := List (Point3i × CacheEntry V)

/-- Insert an entry at the most-recently-used end, replacing any previous
entry at the same key. -/
def insertCacheEntry {V : Type} (sc : SharedCache V) (key : Point3i)
    (e : CacheEntry V) : SharedCache V :=
  sc.filter (fun kc => decide (kc.1 ≠ key)) ++ [(key, e)]

/-- Modelled from the spec: `flush_cache(local_cache)` merges a worker
local decompressed-chunk cache into the shared cache. -/
def flush_local_cache {V : Type} (sc : SharedCache V) (cache : LocalChunkCache V) :
    SharedCache V :=
  cache.foldl (fun sc kc => insertCacheEntry sc kc.1 (CacheEntry.cached kc.2)) sc

/-- The resources `chunk_cache_flusher_system` touches: the
`ThreadLocalVoxelCache` resource (one local cache per worker) and the
shared cache of the `VoxelMap` storage. -/
structure FlusherState (V : Type) where
  local_caches : List (LocalChunkCache V)
  shared_cache : SharedCache V

/-- Rust `chunk_cache_flusher_system`: replace the thread-local cache
resource by a fresh empty one and flush every taken cache into the shared
cache of the map storage. -/
def chunk_cache_flusher_system {V : Type} (s : FlusherState V) : FlusherState V :=
  let taken_caches := s.local_caches
  { local_caches := [],
    shared_cache := taken_caches.foldl flush_local_cache s.shared_cache }

/-- All voxel positions of the chunk at `key`. -/
def chunkExtentPoints (chunk_shape key : Point3i) : Finset Point3i :=
  Finset.Icc (extent_for_chunk_at_key chunk_shape key).minimum
    (extent_for_chunk_at_key chunk_shape key).max

/-- Modelled from the spec: the emptiness test of `remove_if_empty` — the
decompressed content of the chunk equals the default voxel value
everywhere (the `empty_chunk_remover.rs` module is not part of the sources
at hand). -/
def chunk_is_empty {V : Type} [Inhabited V] [DecidableEq V] (chunk_shape key : Point3i)
    (a : Array3 V) : Bool :=
  decide (∀ p ∈ chunkExtentPoints chunk_shape key, a p = (default : V))

/-- Modelled from the spec: `remove_if_empty` scans the store and removes
every chunk whose decompressed content equals the default voxel value
everywhere. -/
def remove_if_empty {V : Type} [Inhabited V] [DecidableEq V] (m : ChunkMap3 V) :
    ChunkMap3 V :=
  { m with chunks := m.chunks.filter (fun kc => !(chunk_is_empty m.chunk_shape kc.1 kc.2)) }

/-- The decompressed byte size an entry holds live: the fixed per-chunk
size when decompressed, nothing when compressed. -/
def entry_live_size {V : Type} (chunk_size : Nat) : CacheEntry V → Nat
  | .cached _ => chunk_size
  | .compressed _ => 0

/-- Total decompressed bytes held by the shared cache. -/
def total_live_size {V : Type} (chunk_size : Nat) (sc : SharedCache V) : Nat :=
  (sc.map (fun kc => entry_live_size chunk_size kc.2)).sum

/-- The number of decompressed entries. -/
def num_cached {V : Type} (sc : SharedCache V) : Nat :=
  (sc.filter (fun kc => kc.2.isCached)).length

/-- Compress the least-recently-used decompressed entry (the first one in
LRU order), leaving everything else in place. -/
def compress_lru_step {V : Type} : SharedCache V → SharedCache V
  | [] => []
  | (k, CacheEntry.cached a) :: rest => (k, CacheEntry.compressed a) :: rest
  | kc :: rest => kc :: compress_lru_step rest

/-- The eviction loop with explicit fuel: while the total decompressed
size exceeds the budget, compress the least-recently-used decompressed
entry.  Each iteration compresses one decompressed entry, so
`num_cached sc` iterations always suffice to reach the stopping guard. -/
def compress_excess_fuel {V : Type} (chunk_size budget : Nat) :
    Nat → SharedCache V → SharedCache V
  | 0, sc => sc
  | fuel + 1, sc =>
    if total_live_size chunk_size sc ≤ budget then sc
    else compress_excess_fuel chunk_size budget fuel (compress_lru_step sc)

/-- Modelled from the spec: `compress_excess(budget)` — while the total
decompressed size of the shared cache exceeds the budget, compress the
least-recently-used decompressed entry (only the fast-access copy is
discarded; the data survives in compressed form).  The
`chunk_compressor.rs` module is not part of the sources at hand. -/
def compress_excess {V : Type} (chunk_size budget : Nat) (sc : SharedCache V) :
    SharedCache V :=
  compress_excess_fuel chunk_size budget (num_cached sc) sc

/-- The resources of one store that the four per-cycle systems of
`MapIoPlugin::build` touch. -/
structure World (V : Type) where
  voxel_map : ChunkMap3 V
  edit_buffer : EditBuffer V
  dirty_chunks : DirtyChunks
  local_caches : List (LocalChunkCache V)
  shared_cache : SharedCache V
  cache_budget : Nat
  chunk_size_bytes : Nat

/-- Stage 1, `chunk_cache_flusher_system` lifted to the world. -/
def flushStage {V : Type} (w : World V) : World V :=
  let r := chunk_cache_flusher_system ⟨w.local_caches, w.shared_cache⟩
  { w with local_caches := r.local_caches, shared_cache := r.shared_cache }

/-- Stage 2, `empty_chunk_remover_system` lifted to the world. -/
def removeStage {V : Type} [Inhabited V] [DecidableEq V] (w : World V) : World V :=
  { w with voxel_map := remove_if_empty w.voxel_map }

/-- Stage 3, `double_buffering_system` lifted to the world. -/
def mergeStage {V : Type} [Inhabited V] (w : World V) : World V :=
  let r := double_buffering_system w.voxel_map w.edit_buffer
  { w with voxel_map := r.1, edit_buffer := r.2.1, dirty_chunks := r.2.2 }

/-- Stage 4, `chunk_compressor_system` lifted to the world. -/
def compressStage {V : Type} (w : World V) : World V :=
  { w with shared_cache := compress_excess w.chunk_size_bytes w.cache_budget w.shared_cache }

/-- The four systems in the order `MapIoPlugin::build` registers them into
the final stage: cache flusher, empty-chunk remover, double buffering,
chunk compressor. -/
def map_io_stage_systems (V : Type) [Inhabited V] [DecidableEq V] :
    List (World V → World V) :=
  [flushStage, removeStage, mergeStage, compressStage]

/-- Modelled from the spec: the driver runs the registered systems of the
stage one at a time, in registration order, once per processing cycle (the
host scheduler itself is an external collaborator; all four systems
mutably borrow the same `VoxelMap` resource, so no two may overlap). -/
def run_cycle {V : Type} [Inhabited V] [DecidableEq V] (w : World V) : World V :=
  (map_io_stage_systems V).foldl (fun s f => f s) w

/-!
Auxiliary lemmas: association lists, integer ranges and floor division.
-/

@[simp]
theorem alistLookup_nil {A : Type} (q : Point3i) :
    alistLookup ([] : List (Point3i × A)) q = none := rfl

@[simp]
theorem alistLookup_cons {A : Type} (kc : Point3i × A) (rest : List (Point3i × A))
    (q : Point3i) :
    alistLookup (kc :: rest) q = if kc.1 = q then some kc.2 else alistLookup rest q := rfl

theorem alistLookup_filter_ne {A : Type} (l : List (Point3i × A)) (k q : Point3i)
    (hq : q ≠ k) :
    alistLookup (l.filter (fun kc => decide (kc.1 ≠ k))) q = alistLookup l q := by
  induction l with
  | nil => rfl
  | cons kc rest ih =>
    rw [List.filter_cons]
    by_cases hk : kc.1 = k
    · have hp : decide (kc.1 ≠ k) = false := by simp [hk]
      have h1 : kc.1 ≠ q := by rw [hk]; exact fun h => hq h.symm
      rw [hp, if_neg Bool.false_ne_true, ih, alistLookup_cons, if_neg h1]
    · have hp : decide (kc.1 ≠ k) = true := by simp [hk]
      rw [hp, if_pos rfl, alistLookup_cons, alistLookup_cons, ih]

theorem lookup_filter_none {A : Type} (l : List (Point3i × A))
    (pred : Point3i × A → Bool) (k : Point3i)
    (h : ∀ a, (k, a) ∈ l → pred (k, a) = false) :
    alistLookup (l.filter pred) k = none := by
  induction l with
  | nil => rfl
  | cons kc rest ih =>
    rw [List.filter_cons]
    have hrest : ∀ a, (k, a) ∈ rest → pred (k, a) = false :=
      fun a ha => h a (List.mem_cons_of_mem kc ha)
    by_cases hp : pred kc = true
    · rw [hp, if_pos rfl, alistLookup_cons]
      by_cases hk : kc.1 = k
      · exfalso
        have h2 := h kc.2 (by rw [← hk]; exact List.mem_cons_self kc rest)
        rw [← hk] at h2
        rw [show ((kc.1, kc.2) : Point3i × A) = kc from rfl, hp] at h2
        cases h2
      · rw [if_neg hk]
        exact ih hrest
    · rw [Bool.not_eq_true] at hp
      rw [hp, if_neg Bool.false_ne_true]
      exact ih hrest

theorem alistLookup_append {A : Type} (l1 l2 : List (Point3i × A)) (q : Point3i) :
    alistLookup (l1 ++ l2) q =
      match alistLookup l1 q with
      | some a => some a
      | none => alistLookup l2 q := by
  induction l1 with
  | nil => rfl
  | cons kc rest ih =>
    by_cases hk : kc.1 = q
    · simp [alistLookup, hk]
    · simp [alistLookup, hk, ih]

theorem alistLookup_isSome_iff {A : Type} (l : List (Point3i × A)) (q : Point3i) :
    (alistLookup l q).isSome = true ↔ q ∈ l.map Prod.fst := by
  induction l with
  | nil => simp [alistLookup]
  | cons kc rest ih =>
    by_cases hk : kc.1 = q
    · simp [alistLookup, hk]
    · simp only [alistLookup, if_neg hk, List.map_cons, List.mem_cons, ih]
      constructor
      · exact fun h => Or.inr h
      · rintro (h | h)
        · exact absurd h.symm hk
        · exact h

theorem alistLookup_none_iff {A : Type} (l : List (Point3i × A)) (q : Point3i) :
    alistLookup l q = none ↔ q ∉ l.map Prod.fst := by
  rw [← alistLookup_isSome_iff, Option.not_isSome_iff_eq_none]

theorem alistLookup_map_transform {A B : Type} (T : Point3i → A → B)
    (l : List (Point3i × A)) (q : Point3i) :
    alistLookup (l.map (fun kc => (kc.1, T kc.1 kc.2))) q =
      (alistLookup l q).map (T q) := by
  induction l with
  | nil => rfl
  | cons kc rest ih =>
    by_cases hk : kc.1 = q
    · simp [alistLookup, hk]
    · simp [alistLookup, hk, ih]

theorem mem_intRange {a b i : Int} : i ∈ intRange a b ↔ a ≤ i ∧ i ≤ b := by
  rw [intRange]
  constructor
  · intro h
    obtain ⟨j, hj, hEq⟩ := List.mem_map.mp h
    rw [List.mem_range] at hj
    omega
  · intro h
    refine List.mem_map.mpr ⟨(i - a).toNat, ?_, ?_⟩
    · rw [List.mem_range]; omega
    · omega

theorem mem_pointRange {lo hi p : Point3i} : p ∈ pointRange lo hi ↔ lo ≤ p ∧ p ≤ hi := by
  obtain ⟨px, py, pz⟩ := p
  obtain ⟨lx, ly, lz⟩ := lo
  obtain ⟨hx, hy, hz⟩ := hi
  simp only [pointRange, List.mem_flatMap, List.mem_map, mem_intRange,
    Prod.mk_le_mk, Prod.mk.injEq]
  constructor
  · rintro ⟨x, hxm, y, hym, z, hzm, rfl, rfl, rfl⟩
    exact ⟨⟨hxm.1, hym.1, hzm.1⟩, hxm.2, hym.2, hzm.2⟩
  · rintro ⟨⟨h1, h2, h3⟩, h4, h5, h6⟩
    exact ⟨px, ⟨h1, h4⟩, py, ⟨h2, h5⟩, pz, ⟨h3, h6⟩, rfl, rfl, rfl⟩

theorem mem_chunk_keys_list {shape : Point3i} {e : Extent3i} {q : Point3i} :
    q ∈ chunk_keys_list shape e ↔ q ∈ chunk_keys_for_extent shape e := by
  rw [chunk_keys_list, chunk_keys_for_extent, mem_pointRange, Finset.mem_Icc]

theorem ediv_sub_cancel (a c : Int) (hc : c ≠ 0) : (a - c) / c = a / c - 1 := by
  have h := Int.add_mul_ediv_right a (-1) hc
  have e : a - c = a + (-1) * c := by ring
  rw [e, h]
  ring

theorem ediv_add_cancel (a c : Int) (hc : c ≠ 0) : (a + c) / c = a / c + 1 := by
  have h := Int.add_mul_ediv_right a 1 hc
  rwa [one_mul] at h

theorem allPos_components {s1 s2 s3 : Int} (hs : Point3i.allPos (s1, s2, s3)) :
    0 < s1 ∧ 0 < s2 ∧ 0 < s3 := hs

theorem pediv_sub_self (p s : Point3i) (hs : Point3i.allPos s) :
    Point3i.ediv (p - s) s = Point3i.ediv p s - 1 := by
  obtain ⟨p1, p2, p3⟩ := p
  obtain ⟨s1, s2, s3⟩ := s
  obtain ⟨h1, h2, h3⟩ := allPos_components hs
  show ((p1 - s1) / s1, (p2 - s2) / s2, (p3 - s3) / s3)
      = (p1 / s1 - 1, p2 / s2 - 1, p3 / s3 - 1)
  rw [ediv_sub_cancel p1 s1 (by omega), ediv_sub_cancel p2 s2 (by omega),
    ediv_sub_cancel p3 s3 (by omega)]

theorem pediv_add_self (p s : Point3i) (hs : Point3i.allPos s) :
    Point3i.ediv (p + s) s = Point3i.ediv p s + 1 := by
  obtain ⟨p1, p2, p3⟩ := p
  obtain ⟨s1, s2, s3⟩ := s
  obtain ⟨h1, h2, h3⟩ := allPos_components hs
  show ((p1 + s1) / s1, (p2 + s2) / s2, (p3 + s3) / s3)
      = (p1 / s1 + 1, p2 / s2 + 1, p3 / s3 + 1)
  rw [ediv_add_cancel p1 s1 (by omega), ediv_add_cancel p2 s2 (by omega),
    ediv_add_cancel p3 s3 (by omega)]

theorem pediv_cmul_self (k s : Point3i) (hs : Point3i.allPos s) :
    Point3i.ediv (Point3i.cmul k s) s = k := by
  obtain ⟨k1, k2, k3⟩ := k
  obtain ⟨s1, s2, s3⟩ := s
  obtain ⟨h1, h2, h3⟩ := allPos_components hs
  show (k1 * s1 / s1, k2 * s2 / s2, k3 * s3 / s3) = (k1, k2, k3)
  rw [Int.mul_ediv_cancel k1 (by omega), Int.mul_ediv_cancel k2 (by omega),
    Int.mul_ediv_cancel k3 (by omega)]

theorem chunk_last_coord_ediv (k c : Int) (hc : 0 < c) : (k * c + c - 1) / c = k := by
  have e : k * c + c - 1 = (c - 1) + k * c := by ring
  rw [e, Int.add_mul_ediv_right _ _ (by omega : c ≠ 0),
    Int.ediv_eq_zero_of_lt (by omega) (by omega), zero_add]

theorem pediv_chunk_max (k s : Point3i) (hs : Point3i.allPos s) :
    Point3i.ediv (Point3i.cmul k s + s - 1) s = k := by
  obtain ⟨k1, k2, k3⟩ := k
  obtain ⟨s1, s2, s3⟩ := s
  obtain ⟨h1, h2, h3⟩ := allPos_components hs
  show ((k1 * s1 + s1 - 1) / s1, (k2 * s2 + s2 - 1) / s2, (k3 * s3 + s3 - 1) / s3)
      = (k1, k2, k3)
  rw [chunk_last_coord_ediv k1 s1 h1, chunk_last_coord_ediv k2 s2 h2,
    chunk_last_coord_ediv k3 s3 h3]

theorem Extent3i.max_fromMinAndMax (lo hi : Point3i) :
    (Extent3i.fromMinAndMax lo hi).max = hi := by
  show lo + (hi - lo + 1) - 1 = hi
  ring

/-!
Lemmas on the chunk map operations.
-/

theorem lookup_insert_chunk {V : Type} (m : ChunkMap3 V) (k : Point3i) (a : Array3 V)
    (q : Point3i) :
    alistLookup (m.insert_chunk k a).chunks q =
      if k = q then some a else alistLookup m.chunks q := by
  unfold ChunkMap3.insert_chunk
  by_cases h : k = q
  · simp [alistLookup_cons, h]
  · rw [alistLookup_cons, if_neg h, if_neg h,
      alistLookup_filter_ne m.chunks k q (fun hh => h hh.symm)]

theorem chunk_shape_insert_chunk {V : Type} (m : ChunkMap3 V) (k : Point3i)
    (a : Array3 V) : (m.insert_chunk k a).chunk_shape = m.chunk_shape := rfl

theorem lookup_get_or_insert_with {V : Type} (m : ChunkMap3 V) (k : Point3i)
    (f : Unit → Array3 V) (q : Point3i) :
    alistLookup (m.get_or_insert_with k f).chunks q =
      if k = q then some ((alistLookup m.chunks k).getD (f ()))
      else alistLookup m.chunks q := by
  cases h : alistLookup m.chunks k with
  | some c =>
    simp only [ChunkMap3.get_or_insert_with, h]
    by_cases hk : k = q
    · subst hk; rw [if_pos rfl, h]; rfl
    · rw [if_neg hk]
  | none =>
    simp only [ChunkMap3.get_or_insert_with, h, alistLookup_cons, Option.getD_none]

theorem chunk_shape_get_or_insert_with {V : Type} (m : ChunkMap3 V) (k : Point3i)
    (f : Unit → Array3 V) : (m.get_or_insert_with k f).chunk_shape = m.chunk_shape := by
  unfold ChunkMap3.get_or_insert_with
  cases alistLookup m.chunks k <;> rfl

theorem lookup_copy_loop {V : Type} (g : Point3i → Array3 V) (ks : List Point3i)
    (m : ChunkMap3 V) (q : Point3i) :
    alistLookup ((ks.foldl (fun m key => m.get_or_insert_with key (fun _ => g key)) m).chunks) q =
      if q ∈ ks ∧ alistLookup m.chunks q = none then some (g q)
      else alistLookup m.chunks q := by
  induction ks generalizing m with
  | nil => simp
  | cons k rest ih =>
    rw [List.foldl_cons, ih]
    by_cases hq : q = k
    · subst hq
      rw [lookup_get_or_insert_with, if_pos rfl]
      cases h : alistLookup m.chunks q with
      | none => simp [h]
      | some c => simp [h]
    · rw [lookup_get_or_insert_with,
        if_neg (show ¬ (k = q) from fun hh => hq hh.symm)]
      simp [List.mem_cons, hq]

theorem chunk_shape_copy_loop {V : Type} (g : Point3i → Array3 V) (ks : List Point3i)
    (m : ChunkMap3 V) :
    ((ks.foldl (fun m key => m.get_or_insert_with key (fun _ => g key)) m)).chunk_shape
      = m.chunk_shape := by
  induction ks generalizing m with
  | nil => rfl
  | cons k rest ih => rw [List.foldl_cons, ih, chunk_shape_get_or_insert_with]

theorem mem_chunk_keys {V : Type} (m : ChunkMap3 V) (q : Point3i) :
    q ∈ m.chunk_keys ↔ (alistLookup m.chunks q).isSome = true := by
  rw [ChunkMap3.chunk_keys, List.mem_toFinset, alistLookup_isSome_iff]

theorem lookup_for_each_mut {V : Type} (m : ChunkMap3 V) (e : Extent3i)
    (f : Point3i → V → V) (q : Point3i) :
    alistLookup (m.for_each_mut e f).chunks q =
      (alistLookup m.chunks q).map (applyEditToChunk m.chunk_shape e f q) := by
  unfold ChunkMap3.for_each_mut
  exact alistLookup_map_transform (applyEditToChunk m.chunk_shape e f) m.chunks q

theorem lookup_merge_fold {V : Type} (l : List (Point3i × Array3 V)) (dst : ChunkMap3 V)
    (q : Point3i) (hnd : (l.map Prod.fst).Nodup) :
    alistLookup ((l.foldl (fun m kc => m.insert_chunk kc.1 kc.2) dst).chunks) q =
      match alistLookup l q with
      | some a => some a
      | none => alistLookup dst.chunks q := by
  induction l generalizing dst with
  | nil => rfl
  | cons kc rest ih =>
    rw [List.map_cons, List.nodup_cons] at hnd
    rw [List.foldl_cons, ih _ hnd.2, alistLookup_cons]
    by_cases hk : kc.1 = q
    · have hnone : alistLookup rest q = none := by
        rw [alistLookup_none_iff]
        rw [← hk]
        exact hnd.1
      rw [if_pos hk, hnone, lookup_insert_chunk, if_pos hk]
    · rw [if_neg hk]
      cases h : alistLookup rest q with
      | some a => rfl
      | none => rw [lookup_insert_chunk, if_neg hk]

theorem chunk_shape_merge_fold {V : Type} (l : List (Point3i × Array3 V))
    (dst : ChunkMap3 V) :
    (l.foldl (fun m kc => m.insert_chunk kc.1 kc.2) dst).chunk_shape = dst.chunk_shape := by
  induction l generalizing dst with
  | nil => rfl
  | cons kc rest ih => rw [List.foldl_cons, ih, chunk_shape_insert_chunk]

/-!
Lemmas on the edit buffer operations.
-/

theorem chunk_shape_after_edit {V : Type} [Inhabited V] (buf : EditBuffer V)
    (reader : ChunkMap3 V) (e : Extent3i) (f : Point3i → V → V) (t : Bool) :
    (buf.edit_voxels_out_of_place reader e f t).edited_voxels.chunk_shape
      = buf.edited_voxels.chunk_shape := by
  simp only [EditBuffer.edit_voxels_out_of_place, EditBuffer.dirty_chunks_for_extent,
    ChunkMap3.for_each_mut]
  exact chunk_shape_copy_loop _ _ _

theorem dirty_after_edit {V : Type} [Inhabited V] (buf : EditBuffer V)
    (reader : ChunkMap3 V) (e : Extent3i) (f : Point3i → V → V) (t : Bool) :
    (buf.edit_voxels_out_of_place reader e f t).dirty_chunk_keys =
      buf.dirty_chunk_keys ∪
        chunk_keys_for_extent buf.edited_voxels.chunk_shape
          (dirtyExtentOf buf.edited_voxels.chunk_shape t e) := by
  simp only [EditBuffer.edit_voxels_out_of_place, EditBuffer.dirty_chunks_for_extent]
  rw [chunk_shape_copy_loop]

theorem lookup_after_edit {V : Type} [Inhabited V] (buf : EditBuffer V)
    (reader : ChunkMap3 V) (e : Extent3i) (f : Point3i → V → V) (t : Bool)
    (q : Point3i) :
    alistLookup ((buf.edit_voxels_out_of_place reader e f t).edited_voxels.chunks) q =
      ((if q ∈ chunk_keys_list reader.chunk_shape e
            ∧ alistLookup buf.edited_voxels.chunks q = none
        then some (copy_chunk_or_default reader q)
        else alistLookup buf.edited_voxels.chunks q)).map
        (applyEditToChunk buf.edited_voxels.chunk_shape e f q) := by
  simp only [EditBuffer.edit_voxels_out_of_place, EditBuffer.dirty_chunks_for_extent]
  rw [lookup_for_each_mut, chunk_shape_copy_loop, lookup_copy_loop]

theorem dirty_after_insert {V : Type} (buf : EditBuffer V) (t : Bool) (k : Point3i)
    (a : Array3 V) :
    (buf.insert_chunk t k a).dirty_chunk_keys =
      buf.dirty_chunk_keys ∪
        chunk_keys_for_extent buf.edited_voxels.chunk_shape
          (dirtyExtentOf buf.edited_voxels.chunk_shape t
            (extent_for_chunk_at_key buf.edited_voxels.chunk_shape k)) := rfl

theorem lookup_after_insert {V : Type} (buf : EditBuffer V) (t : Bool) (k : Point3i)
    (a : Array3 V) (q : Point3i) :
    alistLookup ((buf.insert_chunk t k a).edited_voxels.chunks) q =
      if k = q then some a else alistLookup buf.edited_voxels.chunks q := by
  simp only [EditBuffer.insert_chunk, EditBuffer.dirty_chunks_for_extent]
  exact lookup_insert_chunk _ _ _ _

theorem chunk_shape_after_insert {V : Type} (buf : EditBuffer V) (t : Bool)
    (k : Point3i) (a : Array3 V) :
    (buf.insert_chunk t k a).edited_voxels.chunk_shape
      = buf.edited_voxels.chunk_shape := rfl

theorem merge_edits_dirty {V : Type} (buf : EditBuffer V) (dst : ChunkMap3 V) :
    (buf.merge_edits dst).2.dirty_chunk_keys = buf.dirty_chunk_keys := rfl

theorem merge_edits_edited {V : Type} (buf : EditBuffer V) (dst : ChunkMap3 V) :
    (buf.merge_edits dst).2.edited_chunk_keys = buf.edited_voxels.chunk_keys := rfl

theorem keys_after_edit {V : Type} [Inhabited V] (buf : EditBuffer V)
    (reader : ChunkMap3 V) (e : Extent3i) (f : Point3i → V → V) (t : Bool) :
    (buf.edit_voxels_out_of_place reader e f t).edited_voxels.chunk_keys =
      buf.edited_voxels.chunk_keys ∪ chunk_keys_for_extent reader.chunk_shape e := by
  ext q
  rw [mem_chunk_keys, lookup_after_edit, Finset.mem_union, mem_chunk_keys,
    ← mem_chunk_keys_list]
  by_cases hmem : q ∈ chunk_keys_list reader.chunk_shape e
  · cases hbuf : alistLookup buf.edited_voxels.chunks q <;> simp [hmem, hbuf]
  · cases hbuf : alistLookup buf.edited_voxels.chunks q <;> simp [hmem, hbuf]

/-!
Claim theorems.
-/

/-- C8: for a voxel whose reported type index is within the bounds of
the palette, `VoxelPalette::get_voxel_type_info` returns the `TypeInfo` stored
at exactly that index; for an out-of-bounds index the call fails (the
`Vec` index panics, embedded as `none`), never clamping or coercing to a
wrong entry. -/
theorem palette_lookup_exact {V I : Type} (pal : VoxelPalette I)
    (get_type_index : V → Nat) (voxel : V)
    (h : get_type_index voxel < pal.infos.length) :
    pal.get_voxel_type_info get_type_index voxel
        = some (pal.infos.get ⟨get_type_index voxel, h⟩)
    ∧ ∀ w : V, pal.infos.length ≤ get_type_index w →
        pal.get_voxel_type_info get_type_index w = none := by
  constructor
  · exact List.get?_eq_get h
  · intro w hw
    exact List.get?_eq_none.mpr hw

/-- Witness for C8 at a concrete palette: index 1 of a two-entry palette
is in bounds and yields the second entry; the out-of-bounds branch of the
theorem is exercised by its second conjunct. -/
theorem palette_lookup_exact_witness :
    (VoxelPalette.mk [10, 20]).get_voxel_type_info (fun n : Nat => n) 1 = some 20 := by
  have h := palette_lookup_exact (VoxelPalette.mk [10, 20]) (fun n : Nat => n) 1
    (by decide)
  exact h.1

/-- C2: a chunk key already present in the edit buffer is never copied
from upstream again — a further `edit_voxels_out_of_place` call whose
extent may overlap that key produces, at that key, exactly the previously
buffered chunk with the new edit closure applied to it.  The right-hand
side does not mention the upstream reader at all, so the second edit sees
the result of the first rather than a fresh upstream copy. -/
theorem copy_on_first_touch {V : Type} [Inhabited V] (buf : EditBuffer V)
    (reader : ChunkMap3 V) (e : Extent3i) (f : Point3i → V → V) (t : Bool)
    (k : Point3i) (a : Array3 V)
    (h : alistLookup buf.edited_voxels.chunks k = some a) :
    alistLookup ((buf.edit_voxels_out_of_place reader e f t).edited_voxels.chunks) k
      = some (applyEditToChunk buf.edited_voxels.chunk_shape e f k a) := by
  rw [lookup_after_edit]
  have hns : ¬ (k ∈ chunk_keys_list reader.chunk_shape e
      ∧ alistLookup buf.edited_voxels.chunks k = none) := by
    rintro ⟨-, hnone⟩
    rw [h] at hnone
    cases hnone
  rw [if_neg hns, h]
  rfl

/-- Witness for C2: a buffer that already holds a chunk at the origin key
keeps editing that copy (the upstream reader holds a different chunk there
and is ignored). -/
theorem copy_on_first_touch_witness :
    alistLookup
        (((EditBuffer.mk ⟨(1, 1, 1), [(((0 : Int), (0 : Int), (0 : Int)), fun _ => (5 : Int))]⟩ ∅).edit_voxels_out_of_place
          ⟨(1, 1, 1), [(((0 : Int), (0 : Int), (0 : Int)), fun _ => (9 : Int))]⟩
          (Extent3i.fromMinAndShape (0, 0, 0) (1, 1, 1))
          (fun _ v => v + 1) false).edited_voxels.chunks)
        (0, 0, 0)
      = some (applyEditToChunk (1, 1, 1) (Extent3i.fromMinAndShape (0, 0, 0) (1, 1, 1))
          (fun _ v => v + 1) (0, 0, 0) (fun _ => (5 : Int))) :=
  copy_on_first_touch
    (EditBuffer.mk ⟨(1, 1, 1), [(((0 : Int), (0 : Int), (0 : Int)), fun _ => (5 : Int))]⟩ ∅)
    ⟨(1, 1, 1), [(((0 : Int), (0 : Int), (0 : Int)), fun _ => (9 : Int))]⟩
    (Extent3i.fromMinAndShape (0, 0, 0) (1, 1, 1))
    (fun _ v => v + 1) false (0, 0, 0) (fun _ => (5 : Int))
    (by rw [alistLookup_cons, if_pos rfl])

/-- C3: `merge_edits` consumes the buffer, inserts every buffered chunk
into the destination map (overwriting whatever was stored at that key),
leaves other keys untouched, and reports the buffered keys as the edited
set and the accumulated dirty set as the dirty set; the
`double_buffering_system` then replaces the buffer resource with a fresh
empty `EditBuffer`. -/
theorem merge_edits_moves_buffered_chunks {V : Type} [Inhabited V]
    (buf : EditBuffer V) (dst : ChunkMap3 V)
    (hnd : (buf.edited_voxels.chunks.map Prod.fst).Nodup) :
    (∀ k a, alistLookup buf.edited_voxels.chunks k = some a →
        alistLookup (buf.merge_edits dst).1.chunks k = some a)
    ∧ (∀ k, alistLookup buf.edited_voxels.chunks k = none →
        alistLookup (buf.merge_edits dst).1.chunks k = alistLookup dst.chunks k)
    ∧ (buf.merge_edits dst).2.edited_chunk_keys = buf.edited_voxels.chunk_keys
    ∧ (buf.merge_edits dst).2.dirty_chunk_keys = buf.dirty_chunk_keys
    ∧ (double_buffering_system dst buf).2.1 = EditBuffer.new V dst.chunk_shape
    ∧ (EditBuffer.new V dst.chunk_shape).edited_voxels.chunks = []
    ∧ (EditBuffer.new V dst.chunk_shape).dirty_chunk_keys = ∅ := by
  refine ⟨?_, ?_, rfl, rfl, rfl, rfl, rfl⟩
  · intro k a h
    have := lookup_merge_fold buf.edited_voxels.chunks dst k hnd
    rw [h] at this
    exact this
  · intro k h
    have := lookup_merge_fold buf.edited_voxels.chunks dst k hnd
    rw [h] at this
    exact this

/-- Witness for C3 at a one-chunk buffer merged over a map that already
stores a chunk at the same key. -/
theorem merge_edits_moves_buffered_chunks_witness :
    alistLookup
        ((EditBuffer.mk ⟨(1, 1, 1), [(((0 : Int), (0 : Int), (0 : Int)), fun _ => (5 : Int))]⟩ ∅).merge_edits
          ⟨(1, 1, 1), [(((0 : Int), (0 : Int), (0 : Int)), fun _ => (7 : Int))]⟩).1.chunks
        (0, 0, 0)
      = some (fun _ => (5 : Int)) :=
  (merge_edits_moves_buffered_chunks
    (EditBuffer.mk ⟨(1, 1, 1), [(((0 : Int), (0 : Int), (0 : Int)), fun _ => (5 : Int))]⟩ ∅)
    ⟨(1, 1, 1), [(((0 : Int), (0 : Int), (0 : Int)), fun _ => (7 : Int))]⟩
    (by decide)).1 (0, 0, 0) (fun _ => (5 : Int))
    (by rw [alistLookup_cons, if_pos rfl])

/-- C4: `edit_voxels_out_of_place` and `insert_chunk` never mutate the
shared `VoxelMap` — after any sequence of `VoxelEditor` calls the map is
unchanged, so every read through a reader of the store observes exactly
the values it held at the end of the previous merge. -/
theorem edits_never_mutate_map {V : Type} [Inhabited V] (s : MapIoState V)
    (ops : List (EditorOp V)) :
    (ops.foldl applyEditorOp s).voxel_map = s.voxel_map
    ∧ ∀ p, (ops.foldl applyEditorOp s).voxel_map.get p = s.voxel_map.get p := by
  have h : ∀ (ops : List (EditorOp V)) (s : MapIoState V),
      (ops.foldl applyEditorOp s).voxel_map = s.voxel_map := by
    intro ops
    induction ops with
    | nil => intro s; rfl
    | cons op rest ih =>
      intro s
      rw [List.foldl_cons, ih]
      cases op <;> rfl
  exact ⟨h ops s, fun p => by rw [h ops s]⟩

theorem card_moore (k : Point3i) : (Finset.Icc (k - 1) (k + 1)).card = 27 := by
  obtain ⟨k1, k2, k3⟩ := k
  rw [show ((k1, k2, k3) : Point3i) - 1 = (k1 - 1, k2 - 1, k3 - 1) from rfl,
    show ((k1, k2, k3) : Point3i) + 1 = (k1 + 1, k2 + 1, k3 + 1) from rfl,
    Finset.Icc_prod_def, Finset.card_product, Finset.Icc_prod_def, Finset.card_product]
  dsimp only
  rw [Int.card_Icc, Int.card_Icc, Int.card_Icc,
    show k1 + 1 + 1 - (k1 - 1) = 3 from by ring,
    show k2 + 1 + 1 - (k2 - 1) = 3 from by ring,
    show k3 + 1 + 1 - (k3 - 1) = 3 from by ring]
  rfl

theorem dirty_keys_false {shape : Point3i} {e : Extent3i} {k : Point3i}
    (hmin : chunkKeyContainingPoint shape e.minimum = k)
    (hmax : chunkKeyContainingPoint shape e.max = k) :
    chunk_keys_for_extent shape (dirtyExtentOf shape false e) = {k} := by
  show Finset.Icc (chunkKeyContainingPoint shape e.minimum)
      (chunkKeyContainingPoint shape e.max) = {k}
  rw [hmin, hmax, Finset.Icc_self]

theorem dirty_keys_true {shape : Point3i} (hs : Point3i.allPos shape) {e : Extent3i}
    {k : Point3i}
    (hmin : chunkKeyContainingPoint shape e.minimum = k)
    (hmax : chunkKeyContainingPoint shape e.max = k) :
    chunk_keys_for_extent shape (dirtyExtentOf shape true e)
      = Finset.Icc (k - 1) (k + 1) := by
  show Finset.Icc
      (chunkKeyContainingPoint shape
        (Extent3i.fromMinAndMax (e.minimum - shape) (e.max + shape)).minimum)
      (chunkKeyContainingPoint shape
        (Extent3i.fromMinAndMax (e.minimum - shape) (e.max + shape)).max) = _
  rw [Extent3i.max_fromMinAndMax,
    show (Extent3i.fromMinAndMax (e.minimum - shape) (e.max + shape)).minimum
      = e.minimum - shape from rfl]
  show Finset.Icc (Point3i.ediv (e.minimum - shape) shape)
      (Point3i.ediv (e.max + shape) shape) = _
  rw [pediv_sub_self _ _ hs, pediv_add_self _ _ hs]
  rw [show Point3i.ediv e.minimum shape = k from hmin,
    show Point3i.ediv e.max shape = k from hmax]

/-- C1: for an edit whose extent lies inside one chunk (both extent
corners map to chunk key `k`), starting from a fresh buffer,
`merge_edits` reports `dirty_chunk_keys = {k}` when neighbors are not
touched, and the full 27-key Moore neighborhood of `k` (the box of keys
from `k - 1` to `k + 1`, which has exactly 27 elements) when they are; the
edited key set is `{k}` in both cases.  The concrete scenario — chunk
shape 16×16×16, a 1×1×1 extent at world point (5,5,5), neighbors touched —
yields edited keys `{(0,0,0)}` and the 27 dirty keys from (-1,-1,-1) to
(1,1,1). -/
theorem single_chunk_edit_dirty_set {V : Type} [Inhabited V] (shape : Point3i)
    (hs : Point3i.allPos shape) (reader : ChunkMap3 V)
    (hr : reader.chunk_shape = shape) (e : Extent3i) (k : Point3i)
    (hmin : chunkKeyContainingPoint shape e.minimum = k)
    (hmax : chunkKeyContainingPoint shape e.max = k)
    (f : Point3i → V → V) (dst : ChunkMap3 V) :
    (((EditBuffer.new V shape).edit_voxels_out_of_place reader e f false).merge_edits
        dst).2.dirty_chunk_keys = {k}
    ∧ (((EditBuffer.new V shape).edit_voxels_out_of_place reader e f true).merge_edits
        dst).2.dirty_chunk_keys = Finset.Icc (k - 1) (k + 1)
    ∧ (((EditBuffer.new V shape).edit_voxels_out_of_place reader e f false).merge_edits
        dst).2.edited_chunk_keys = {k}
    ∧ (((EditBuffer.new V shape).edit_voxels_out_of_place reader e f true).merge_edits
        dst).2.edited_chunk_keys = {k}
    ∧ k ∈ Finset.Icc (k - 1) (k + 1)
    ∧ (Finset.Icc (k - 1) (k + 1)).card = 27
    ∧ (((EditBuffer.new Int (16, 16, 16)).edit_voxels_out_of_place
          (default_chunk_map Int (16, 16, 16))
          (Extent3i.fromMinAndShape (5, 5, 5) (1, 1, 1))
          (fun _ _ => (1 : Int)) true).merge_edits
        (default_chunk_map Int (16, 16, 16))).2.edited_chunk_keys
        = {((0 : Int), (0 : Int), (0 : Int))}
    ∧ (((EditBuffer.new Int (16, 16, 16)).edit_voxels_out_of_place
          (default_chunk_map Int (16, 16, 16))
          (Extent3i.fromMinAndShape (5, 5, 5) (1, 1, 1))
          (fun _ _ => (1 : Int)) true).merge_edits
        (default_chunk_map Int (16, 16, 16))).2.dirty_chunk_keys
        = Finset.Icc ((-1 : Int), (-1 : Int), (-1 : Int)) ((1 : Int), (1 : Int), (1 : Int)) := by
  have hkeys : ∀ t : Bool,
      (((EditBuffer.new V shape).edit_voxels_out_of_place reader e f t).merge_edits
        dst).2.edited_chunk_keys = {k} := by
    intro t
    rw [merge_edits_edited, keys_after_edit]
    rw [show (EditBuffer.new V shape).edited_voxels.chunk_keys = ∅ from rfl,
      Finset.empty_union, hr]
    show Finset.Icc (chunkKeyContainingPoint shape e.minimum)
        (chunkKeyContainingPoint shape e.max) = {k}
    rw [hmin, hmax, Finset.Icc_self]
  refine ⟨?_, ?_, hkeys false, hkeys true, ?_, card_moore k, by decide, by decide⟩
  · rw [merge_edits_dirty, dirty_after_edit,
      show (EditBuffer.new V shape).edited_voxels.chunk_shape = shape from rfl,
      dirty_keys_false hmin hmax,
      show (EditBuffer.new V shape).dirty_chunk_keys = ∅ from rfl,
      Finset.empty_union]
  · rw [merge_edits_dirty, dirty_after_edit,
      show (EditBuffer.new V shape).edited_voxels.chunk_shape = shape from rfl,
      dirty_keys_true hs hmin hmax,
      show (EditBuffer.new V shape).dirty_chunk_keys = ∅ from rfl,
      Finset.empty_union]
  · rw [Finset.mem_Icc]
    obtain ⟨k1, k2, k3⟩ := k
    rw [show ((k1, k2, k3) : Point3i) - 1 = (k1 - 1, k2 - 1, k3 - 1) from rfl,
      show ((k1, k2, k3) : Point3i) + 1 = (k1 + 1, k2 + 1, k3 + 1) from rfl,
      Prod.mk_le_mk, Prod.mk_le_mk, Prod.mk_le_mk, Prod.mk_le_mk]
    refine ⟨⟨by omega, by omega, by omega⟩, by omega, by omega, by omega⟩

/-- Witness for C1: the scenario of the claim itself — chunk shape
16×16×16, the 1×1×1 extent at (5,5,5), whose two corners both map to
chunk key (0,0,0). -/
theorem single_chunk_edit_dirty_set_witness :
    (((EditBuffer.new Int (16, 16, 16)).edit_voxels_out_of_place
        (default_chunk_map Int (16, 16, 16))
        (Extent3i.fromMinAndShape (5, 5, 5) (1, 1, 1))
        (fun _ _ => (1 : Int)) false).merge_edits
      (default_chunk_map Int (16, 16, 16))).2.dirty_chunk_keys
      = {((0 : Int), (0 : Int), (0 : Int))} :=
  (single_chunk_edit_dirty_set (16, 16, 16) (by decide)
    (default_chunk_map Int (16, 16, 16)) rfl
    (Extent3i.fromMinAndShape (5, 5, 5) (1, 1, 1)) (0, 0, 0)
    (by decide) (by decide)
    (fun _ _ => (1 : Int)) (default_chunk_map Int (16, 16, 16))).1

theorem point_sub_one_le (a : Point3i) : a - 1 ≤ a := by
  obtain ⟨a1, a2, a3⟩ := a
  rw [show ((a1, a2, a3) : Point3i) - 1 = (a1 - 1, a2 - 1, a3 - 1) from rfl,
    Prod.mk_le_mk, Prod.mk_le_mk]
  refine ⟨by omega, by omega, by omega⟩

theorem point_le_add_one (a : Point3i) : a ≤ a + 1 := by
  obtain ⟨a1, a2, a3⟩ := a
  rw [show ((a1, a2, a3) : Point3i) + 1 = (a1 + 1, a2 + 1, a3 + 1) from rfl,
    Prod.mk_le_mk, Prod.mk_le_mk]
  refine ⟨by omega, by omega, by omega⟩

theorem chunk_keys_subset_dirty_extent (shape : Point3i) (hs : Point3i.allPos shape)
    (t : Bool) (e : Extent3i) :
    chunk_keys_for_extent shape e ⊆ chunk_keys_for_extent shape (dirtyExtentOf shape t e) := by
  cases t with
  | false => exact fun x hx => hx
  | true =>
    rw [show dirtyExtentOf shape true e
      = Extent3i.fromMinAndMax (e.minimum - shape) (e.max + shape) from rfl]
    unfold chunk_keys_for_extent
    rw [Extent3i.max_fromMinAndMax,
      show (Extent3i.fromMinAndMax (e.minimum - shape) (e.max + shape)).minimum
        = e.minimum - shape from rfl]
    show Finset.Icc (Point3i.ediv e.minimum shape) (Point3i.ediv e.max shape)
      ⊆ Finset.Icc (Point3i.ediv (e.minimum - shape) shape)
          (Point3i.ediv (e.max + shape) shape)
    rw [pediv_sub_self _ _ hs, pediv_add_self _ _ hs]
    exact Finset.Icc_subset_Icc (point_sub_one_le _) (point_le_add_one _)

theorem chunk_keys_own_extent (shape k : Point3i) (hs : Point3i.allPos shape) :
    chunk_keys_for_extent shape (extent_for_chunk_at_key shape k) = {k} := by
  show Finset.Icc (Point3i.ediv (Point3i.cmul k shape) shape)
      (Point3i.ediv (Point3i.cmul k shape + shape - 1) shape) = {k}
  rw [pediv_cmul_self _ _ hs, pediv_chunk_max _ _ hs, Finset.Icc_self]

theorem keys_after_insert {V : Type} (buf : EditBuffer V) (t : Bool) (k : Point3i)
    (a : Array3 V) :
    (buf.insert_chunk t k a).edited_voxels.chunk_keys
      ⊆ insert k buf.edited_voxels.chunk_keys := by
  intro q hq
  rw [mem_chunk_keys, lookup_after_insert] at hq
  rw [Finset.mem_insert, mem_chunk_keys]
  by_cases h : k = q
  · exact Or.inl h.symm
  · rw [if_neg h] at hq
    exact Or.inr hq

theorem editor_op_invariant {V : Type} [Inhabited V] (shape : Point3i)
    (hs : Point3i.allPos shape) (s : MapIoState V) (op : EditorOp V)
    (hms : s.voxel_map.chunk_shape = shape)
    (hbs : s.edit_buffer.edited_voxels.chunk_shape = shape)
    (hsub : s.edit_buffer.edited_voxels.chunk_keys ⊆ s.edit_buffer.dirty_chunk_keys) :
    (applyEditorOp s op).voxel_map.chunk_shape = shape
    ∧ (applyEditorOp s op).edit_buffer.edited_voxels.chunk_shape = shape
    ∧ (applyEditorOp s op).edit_buffer.edited_voxels.chunk_keys
        ⊆ (applyEditorOp s op).edit_buffer.dirty_chunk_keys := by
  cases op with
  | editExtent t e f =>
    refine ⟨hms, ?_, ?_⟩
    · show (s.edit_buffer.edit_voxels_out_of_place s.voxel_map e f t).edited_voxels.chunk_shape
        = shape
      rw [chunk_shape_after_edit, hbs]
    · show (s.edit_buffer.edit_voxels_out_of_place s.voxel_map e f t).edited_voxels.chunk_keys
        ⊆ (s.edit_buffer.edit_voxels_out_of_place s.voxel_map e f t).dirty_chunk_keys
      rw [keys_after_edit, dirty_after_edit, hms, hbs]
      intro q hq
      rw [Finset.mem_union] at hq ⊢
      rcases hq with h | h
      · exact Or.inl (hsub h)
      · exact Or.inr (chunk_keys_subset_dirty_extent shape hs t e h)
  | insertChunk t k a =>
    refine ⟨hms, ?_, ?_⟩
    · show (s.edit_buffer.insert_chunk t k a).edited_voxels.chunk_shape = shape
      rw [chunk_shape_after_insert, hbs]
    · show (s.edit_buffer.insert_chunk t k a).edited_voxels.chunk_keys
        ⊆ (s.edit_buffer.insert_chunk t k a).dirty_chunk_keys
      intro q hq
      have hq2 := keys_after_insert s.edit_buffer t k a hq
      rw [dirty_after_insert, hbs, Finset.mem_union]
      rw [Finset.mem_insert] at hq2
      rcases hq2 with rfl | h
      · right
        apply chunk_keys_subset_dirty_extent shape hs t _
        rw [chunk_keys_own_extent shape q hs]
        exact Finset.mem_singleton_self q
      · exact Or.inl (hsub h)

theorem editor_ops_invariant {V : Type} [Inhabited V] (shape : Point3i)
    (hs : Point3i.allPos shape) (ops : List (EditorOp V)) (s : MapIoState V)
    (hms : s.voxel_map.chunk_shape = shape)
    (hbs : s.edit_buffer.edited_voxels.chunk_shape = shape)
    (hsub : s.edit_buffer.edited_voxels.chunk_keys ⊆ s.edit_buffer.dirty_chunk_keys) :
    (ops.foldl applyEditorOp s).voxel_map.chunk_shape = shape
    ∧ (ops.foldl applyEditorOp s).edit_buffer.edited_voxels.chunk_shape = shape
    ∧ (ops.foldl applyEditorOp s).edit_buffer.edited_voxels.chunk_keys
        ⊆ (ops.foldl applyEditorOp s).edit_buffer.dirty_chunk_keys := by
  induction ops generalizing s with
  | nil => exact ⟨hms, hbs, hsub⟩
  | cons op rest ih =>
    rw [List.foldl_cons]
    obtain ⟨h1, h2, h3⟩ := editor_op_invariant shape hs s op hms hbs hsub
    exact ih _ h1 h2 h3

/-- C9: for every sequence of `VoxelEditor` calls (extent edits or chunk
inserts, with any mix of `touch_neighbors` flags) starting from a fresh
`EditBuffer`, the `DirtyChunks` returned by `merge_edits` has its edited
key set contained in its dirty key set — the dirty set always contains
the edited set, even when neighbors are not touched. -/
theorem edited_keys_subset_dirty {V : Type} [Inhabited V] (shape : Point3i)
    (hs : Point3i.allPos shape) (map0 : ChunkMap3 V) (hm : map0.chunk_shape = shape)
    (ops : List (EditorOp V)) (dst : ChunkMap3 V) :
    ((ops.foldl applyEditorOp
        (MapIoState.mk map0 (EditBuffer.new V shape))).edit_buffer.merge_edits
      dst).2.edited_chunk_keys
      ⊆ ((ops.foldl applyEditorOp
          (MapIoState.mk map0 (EditBuffer.new V shape))).edit_buffer.merge_edits
        dst).2.dirty_chunk_keys := by
  have hempty : (EditBuffer.new V shape).edited_voxels.chunk_keys = (∅ : Finset Point3i) :=
    rfl
  have h := editor_ops_invariant shape hs ops (MapIoState.mk map0 (EditBuffer.new V shape))
    hm rfl (by rw [hempty]; exact Finset.empty_subset _)
  rw [merge_edits_edited, merge_edits_dirty]
  exact h.2.2

/-- Witness for C9: chunk shape (1,1,1) is positive and the fresh state
over an empty map satisfies the theorem with a one-edit call list. -/
theorem edited_keys_subset_dirty_witness :
    (([EditorOp.editExtent false (Extent3i.fromMinAndShape (0, 0, 0) (1, 1, 1))
          (fun _ v => v + 1)].foldl applyEditorOp
        (MapIoState.mk (default_chunk_map Int (1, 1, 1))
          (EditBuffer.new Int (1, 1, 1)))).edit_buffer.merge_edits
      (default_chunk_map Int (1, 1, 1))).2.edited_chunk_keys
      ⊆ (([EditorOp.editExtent false (Extent3i.fromMinAndShape (0, 0, 0) (1, 1, 1))
            (fun _ v => v + 1)].foldl applyEditorOp
          (MapIoState.mk (default_chunk_map Int (1, 1, 1))
            (EditBuffer.new Int (1, 1, 1)))).edit_buffer.merge_edits
        (default_chunk_map Int (1, 1, 1))).2.dirty_chunk_keys :=
  edited_keys_subset_dirty (1, 1, 1) (by decide) (default_chunk_map Int (1, 1, 1)) rfl
    [EditorOp.editExtent false (Extent3i.fromMinAndShape (0, 0, 0) (1, 1, 1))
      (fun _ v => v + 1)]
    (default_chunk_map Int (1, 1, 1))

/-- C5: the per-cycle removal pass removes every chunk whose decompressed
content equals the default voxel value everywhere, so such a chunk is
absent from the store afterwards and a read at any point of it returns
the default value.  The removal predicate and pass are modelled from the
spec, the `empty_chunk_remover.rs` module being absent from the sources. -/
theorem empty_chunk_removed {V : Type} [Inhabited V] [DecidableEq V]
    (m : ChunkMap3 V) (k : Point3i)
    (hempty : ∀ a, (k, a) ∈ m.chunks →
      ∀ p ∈ chunkExtentPoints m.chunk_shape k, a p = (default : V)) :
    alistLookup (remove_if_empty m).chunks k = none
    ∧ ∀ p, chunkKeyContainingPoint m.chunk_shape p = k →
        (remove_if_empty m).get p = default := by
  have hnone : alistLookup (remove_if_empty m).chunks k = none := by
    apply lookup_filter_none
    intro a ha
    have he : chunk_is_empty m.chunk_shape k a = true := by
      rw [chunk_is_empty, decide_eq_true_iff]
      exact hempty a ha
    rw [he]
    rfl
  refine ⟨hnone, fun p hp => ?_⟩
  rw [ChunkMap3.get,
    show (remove_if_empty m).chunk_shape = m.chunk_shape from rfl, hp, hnone]

/-- Witness for C5: a one-chunk map whose single chunk is identically the
default value; after the pass the chunk is gone and a read inside it
returns the default. -/
theorem empty_chunk_removed_witness :
    alistLookup
        (remove_if_empty
          (ChunkMap3.mk ((2 : Int), (2 : Int), (2 : Int))
            [(((0 : Int), (0 : Int), (0 : Int)), fun _ => (0 : Int))])).chunks
        (0, 0, 0) = none :=
  (empty_chunk_removed
    (ChunkMap3.mk ((2 : Int), (2 : Int), (2 : Int))
      [(((0 : Int), (0 : Int), (0 : Int)), fun _ => (0 : Int))])
    (0, 0, 0)
    (by
      intro a ha p hp
      rw [List.mem_singleton] at ha
      have ha2 : a = fun _ => (0 : Int) := congrArg Prod.snd ha
      rw [ha2]
      rfl)).1

/-- C6: one processing cycle runs the four registered systems exactly
once each, in the registration order of `MapIoPlugin::build` — flush the
thread-local caches, remove empty chunks, merge the edit buffer and
publish `DirtyChunks`, compress over-budget cache entries — each stage
completing before the next starts (sequential composition). -/
theorem cycle_runs_stages_in_order {V : Type} [Inhabited V] [DecidableEq V]
    (w : World V) :
    run_cycle w = compressStage (mergeStage (removeStage (flushStage w)))
    ∧ map_io_stage_systems V
        = [flushStage, removeStage, mergeStage, compressStage] := ⟨rfl, rfl⟩

@[simp]
theorem CacheEntry.isCached_cached {V : Type} (a : Array3 V) :
    (CacheEntry.cached a).isCached = true := rfl

@[simp]
theorem CacheEntry.isCached_compressed {V : Type} (a : Array3 V) :
    (CacheEntry.compressed a).isCached = false := rfl

@[simp]
theorem num_cached_cons_cached {V : Type} (k : Point3i) (a : Array3 V)
    (rest : SharedCache V) :
    num_cached ((k, CacheEntry.cached a) :: rest) = num_cached rest + 1 := by
  simp [num_cached, List.filter_cons]

@[simp]
theorem num_cached_cons_compressed {V : Type} (k : Point3i) (a : Array3 V)
    (rest : SharedCache V) :
    num_cached ((k, CacheEntry.compressed a) :: rest) = num_cached rest := by
  simp [num_cached, List.filter_cons]

theorem total_live_size_eq {V : Type} (chunk_size : Nat) (sc : SharedCache V) :
    total_live_size chunk_size sc = chunk_size * num_cached sc := by
  induction sc with
  | nil => simp [total_live_size, num_cached]
  | cons kc rest ih =>
    obtain ⟨k, e⟩ := kc
    have hrest : (rest.map (fun kc => entry_live_size chunk_size kc.2)).sum
        = chunk_size * num_cached rest := ih
    cases e with
    | cached a =>
      show chunk_size + (rest.map (fun kc => entry_live_size chunk_size kc.2)).sum
          = chunk_size * num_cached ((k, CacheEntry.cached a) :: rest)
      rw [hrest, num_cached_cons_cached, Nat.mul_add, Nat.mul_one]
      omega
    | compressed a =>
      show 0 + (rest.map (fun kc => entry_live_size chunk_size kc.2)).sum
          = chunk_size * num_cached ((k, CacheEntry.compressed a) :: rest)
      rw [hrest, num_cached_cons_compressed, Nat.zero_add]

theorem num_cached_compress_lru_step {V : Type} (sc : SharedCache V)
    (h : 0 < num_cached sc) :
    num_cached (compress_lru_step sc) = num_cached sc - 1 := by
  induction sc with
  | nil => simp [num_cached] at h
  | cons kc rest ih =>
    obtain ⟨k, e⟩ := kc
    cases e with
    | cached a => simp [compress_lru_step]
    | compressed a =>
      rw [num_cached_cons_compressed] at h
      show num_cached ((k, CacheEntry.compressed a) :: compress_lru_step rest)
          = num_cached ((k, CacheEntry.compressed a) :: rest) - 1
      rw [num_cached_cons_compressed, num_cached_cons_compressed]
      exact ih h

theorem compress_excess_fuel_le {V : Type} (cs b fuel : Nat) (sc : SharedCache V)
    (hf : num_cached sc ≤ fuel) :
    total_live_size cs (compress_excess_fuel cs b fuel sc) ≤ b := by
  induction fuel generalizing sc with
  | zero =>
    show total_live_size cs sc ≤ b
    rw [total_live_size_eq, Nat.le_zero.mp hf, Nat.mul_zero]
    exact Nat.zero_le b
  | succ n ih =>
    show total_live_size cs
        (if total_live_size cs sc ≤ b then sc
         else compress_excess_fuel cs b n (compress_lru_step sc)) ≤ b
    by_cases h : total_live_size cs sc ≤ b
    · rw [if_pos h]; exact h
    · rw [if_neg h]
      apply ih
      have hpos : 0 < num_cached sc := by
        rcases Nat.eq_zero_or_pos (num_cached sc) with h0 | h0
        · exfalso
          apply h
          rw [total_live_size_eq, h0, Nat.mul_zero]
          exact Nat.zero_le b
        · exact h0
      rw [num_cached_compress_lru_step sc hpos]
      omega

theorem lookup_compress_lru_step {V : Type} (sc : SharedCache V) (q : Point3i) :
    (alistLookup (compress_lru_step sc) q).map CacheEntry.data
      = (alistLookup sc q).map CacheEntry.data := by
  induction sc with
  | nil => rfl
  | cons kc rest ih =>
    obtain ⟨k, e⟩ := kc
    cases e with
    | cached a =>
      show (alistLookup ((k, CacheEntry.compressed a) :: rest) q).map CacheEntry.data
          = (alistLookup ((k, CacheEntry.cached a) :: rest) q).map CacheEntry.data
      rw [alistLookup_cons, alistLookup_cons]
      by_cases h : k = q
      · rw [if_pos h, if_pos h]
        rfl
      · rw [if_neg h, if_neg h]
    | compressed a =>
      show (alistLookup ((k, CacheEntry.compressed a) :: compress_lru_step rest) q).map
            CacheEntry.data
          = (alistLookup ((k, CacheEntry.compressed a) :: rest) q).map CacheEntry.data
      rw [alistLookup_cons, alistLookup_cons]
      by_cases h : k = q
      · rw [if_pos h, if_pos h]
      · rw [if_neg h, if_neg h]
        exact ih

theorem lookup_compress_excess_fuel {V : Type} (cs b fuel : Nat) (sc : SharedCache V)
    (q : Point3i) :
    (alistLookup (compress_excess_fuel cs b fuel sc) q).map CacheEntry.data
      = (alistLookup sc q).map CacheEntry.data := by
  induction fuel generalizing sc with
  | zero => rfl
  | succ n ih =>
    show (alistLookup
        (if total_live_size cs sc ≤ b then sc
         else compress_excess_fuel cs b n (compress_lru_step sc)) q).map CacheEntry.data = _
    by_cases h : total_live_size cs sc ≤ b
    · rw [if_pos h]
    · rw [if_neg h, ih, lookup_compress_lru_step]

/-- C7: after the compression stage runs, the total decompressed byte
size of the shared cache is at most the configured budget (stated with
the premise of the claim that a single chunk fits the budget, though the
eviction loop needs no such premise), and no voxel data is lost: the
array every cache entry denotes, decompressing as needed, is unchanged at
every key. -/
theorem eviction_safety {V : Type} (w : World V)
    (_hchunk : w.chunk_size_bytes ≤ w.cache_budget) :
    total_live_size w.chunk_size_bytes (compressStage w).shared_cache ≤ w.cache_budget
    ∧ ∀ q, (alistLookup (compressStage w).shared_cache q).map CacheEntry.data
        = (alistLookup w.shared_cache q).map CacheEntry.data := by
  refine ⟨?_, fun q => ?_⟩
  · exact compress_excess_fuel_le _ _ _ _ le_rfl
  · exact lookup_compress_excess_fuel _ _ _ _ q

/-- Witness for C7: a two-entry decompressed cache of total size 2 against
budget 1 (one chunk of size 1 fits the budget); the stage leaves at most
1 byte live and preserves the data of both entries. -/
theorem eviction_safety_witness :
    total_live_size 1
        (compressStage
          (World.mk (default_chunk_map Int (1, 1, 1)) (EditBuffer.new Int (1, 1, 1))
            (DirtyChunks.mk ∅ ∅) []
            [(((0 : Int), (0 : Int), (0 : Int)), CacheEntry.cached (fun _ => (3 : Int))),
              (((1 : Int), (0 : Int), (0 : Int)), CacheEntry.cached (fun _ => (4 : Int)))]
            1 1)).shared_cache ≤ 1 :=
  (eviction_safety
    (World.mk (default_chunk_map Int (1, 1, 1)) (EditBuffer.new Int (1, 1, 1))
      (DirtyChunks.mk ∅ ∅) []
      [(((0 : Int), (0 : Int), (0 : Int)), CacheEntry.cached (fun _ => (3 : Int))),
        (((1 : Int), (0 : Int), (0 : Int)), CacheEntry.cached (fun _ => (4 : Int)))]
      1 1)
    (by decide)).1

theorem lookup_insertCacheEntry {V : Type} (sc : SharedCache V) (k : Point3i)
    (e : CacheEntry V) (q : Point3i) :
    alistLookup (insertCacheEntry sc k e) q =
      if k = q then some e else alistLookup sc q := by
  by_cases h : k = q
  · subst h
    rw [if_pos rfl]
    unfold insertCacheEntry
    rw [alistLookup_append,
      lookup_filter_none _ _ k (fun a _ => by simp)]
    show alistLookup [(k, e)] k = some e
    rw [alistLookup_cons, if_pos rfl]
  · rw [if_neg h]
    unfold insertCacheEntry
    rw [alistLookup_append, alistLookup_filter_ne sc k q (fun hh => h hh.symm)]
    cases hsc : alistLookup sc q with
    | some a => rfl
    | none =>
      show alistLookup [(k, e)] q = none
      rw [alistLookup_cons, if_neg h]
      rfl

theorem flush_isSome {V : Type} (c : LocalChunkCache V) (sc : SharedCache V)
    (q : Point3i) :
    (alistLookup (flush_local_cache sc c) q).isSome = true
      ↔ (alistLookup sc q).isSome = true ∨ (alistLookup c q).isSome = true := by
  induction c generalizing sc with
  | nil => simp [flush_local_cache]
  | cons kc rest ih =>
    show (alistLookup
        (flush_local_cache (insertCacheEntry sc kc.1 (CacheEntry.cached kc.2)) rest)
        q).isSome = true ↔ _
    rw [ih, lookup_insertCacheEntry, alistLookup_cons]
    by_cases h : kc.1 = q
    · simp [h]
    · simp [h]

theorem foldl_flush_isSome {V : Type} (caches : List (LocalChunkCache V))
    (sc : SharedCache V) (q : Point3i) :
    (alistLookup (caches.foldl flush_local_cache sc) q).isSome = true
      ↔ (alistLookup sc q).isSome = true
        ∨ ∃ c ∈ caches, (alistLookup c q).isSome = true := by
  induction caches generalizing sc with
  | nil => simp
  | cons c rest ih =>
    rw [List.foldl_cons, ih, flush_isSome]
    simp only [List.mem_cons]
    constructor
    · rintro ((h | h) | ⟨c2, hc2, h⟩)
      · exact Or.inl h
      · exact Or.inr ⟨c, Or.inl rfl, h⟩
      · exact Or.inr ⟨c2, Or.inr hc2, h⟩
    · rintro (h | ⟨c2, (rfl | hc2), h⟩)
      · exact Or.inl (Or.inl h)
      · exact Or.inl (Or.inr h)
      · exact Or.inr ⟨c2, hc2, h⟩

/-- C10: `chunk_cache_flusher_system` replaces the `ThreadLocalVoxelCache`
resource by a fresh empty one (no locally decompressed chunk remains
thread-local) and flushes every worker cache into the shared cache of the
map: after the flush, a key is present in the shared cache exactly when
it already was or some worker cache held it. -/
theorem flusher_flushes_and_empties {V : Type} (s : FlusherState V) :
    (chunk_cache_flusher_system s).local_caches = []
    ∧ ∀ q, (alistLookup (chunk_cache_flusher_system s).shared_cache q).isSome = true
        ↔ (alistLookup s.shared_cache q).isSome = true
          ∨ ∃ c ∈ s.local_caches, (alistLookup c q).isSome = true :=
  ⟨rfl, fun q => foldl_flush_isSome s.local_caches s.shared_cache q⟩

end BevyBB
